import Mathlib

/-!
Shallow embedding of the ComfyUI_Notte diarization-aware transcript merge
(`modules/predict.py` and `nodes/notte.py`).

Timestamps and probabilities are modelled as rationals, Python strings as
`String`, the word/segment/turn dicts as structures, and the forward cursor
`speaker_idx` into `diarization_list` as the list of remaining turns
(`diarization_list[speaker_idx:]`): advancing the index by one corresponds
to dropping the head of that list.
-/

namespace Notte

/-- A word dict as built at `predict.py` lines 213-218. -/
structure Word where
  start : ℚ
  «end» : ℚ
  word : String
  probability : ℚ
  deriving DecidableEq, Repr

/-- A transcript segment dict as built at `predict.py` lines 206-223. -/
structure TranscriptSegment where
  avg_logprob : ℚ
  start : ℚ
  «end» : ℚ
  text : String
  words : List Word
  deriving DecidableEq, Repr

/-- One diarization turn `(turn, _, speaker)` from `diarization.itertracks`
(line 251). -/
structure Turn where
  start : ℚ
  «end» : ℚ
  speaker : String
  deriving DecidableEq, Repr

/-- A labeled segment dict (`new_segment`, lines 295-302). -/
structure LabeledSegment where
  avg_logprob : ℚ
  start : ℚ
  «end» : ℚ
  speaker : String
  text : String
  words : List Word
  deriving DecidableEq, Repr

/-- An output group dict (lines 320-330): `text` and `words` are present
only when the output format populates them. -/
structure Group where
  start : ℚ
  «end» : ℚ
  speaker : String
  avg_logprob : ℚ
  text : Option String
  words : Option (List Word)
  deriving DecidableEq, Repr

/-- The mutable state of the merge loop: the remaining diarization turns
(`diarization_list[speaker_idx:]`) and the Python variable `speaker`
(`none` before its first assignment). -/
structure ScanState where
  rem : List Turn
  sp : Option String
  deriving DecidableEq, Repr

/-- The whitespace characters removed by Python `str.strip()` (ASCII part). -/
def pyWhitespace (c : Char) : Bool :=
  c = ' ' || c = '\t' || c = '\n' || c = '\r' || c = '\x0b' || c = '\x0c'

/-- Model of Python `str.strip()`: drop leading and trailing whitespace. -/
def pyStrip (s : String) : String :=
  ⟨((s.data.dropWhile pyWhitespace).reverse.dropWhile pyWhitespace).reverse⟩

/-- Model of `re.sub("  ", " ", s)` (line 294): replace each leftmost
non-overlapping occurrence of two spaces by one space, resuming the scan
after the replaced pair. -/
def collapseSpacesAux : List Char → List Char
  | ' ' :: ' ' :: rest => ' ' :: collapseSpacesAux rest
  | c :: rest => c :: collapseSpacesAux rest
  | [] => []

/-- String form of `collapseSpacesAux`. -/
def reSubTwoSpaces (s : String) : String := ⟨collapseSpacesAux s.data⟩

/-- `margin = 0.1  # 0.1 seconds margin` (line 246). -/
def margin : ℚ := 0.1

/-- The offset applied to each word when the segment dicts are built
(lines 214-215). -/
def offsetWord (off : ℚ) (w : Word) : Word :=
  { w with start := w.start + off, «end» := w.«end» + off }

/-- The offset applied to each segment when the segment dicts are built
(lines 209-210). -/
def offsetSegment (off : ℚ) (s : TranscriptSegment) : TranscriptSegment :=
  { s with
    start := s.start + off,
    «end» := s.«end» + off,
    words := s.words.map (offsetWord off) }

/-- The segment-dict building stage (lines 206-223). -/
def offsetSegments (off : ℚ) (ss : List TranscriptSegment) : List TranscriptSegment :=
  ss.map (offsetSegment off)

/-- `len({speaker for _, _, speaker in diarization.itertracks(...)})`
(lines 252-255). -/
def detected_num_speakers (turns : List Turn) : ℕ :=
  ((turns.map Turn.speaker).dedup).length

/-- `word_start = word["start"] + offset_seconds - margin` (line 269). -/
def wordWindowStart (off : ℚ) (w : Word) : ℚ := w.start + off - margin

/-- `word_end = word["end"] + offset_seconds + margin` (line 270). -/
def wordWindowEnd (off : ℚ) (w : Word) : ℚ := w.«end» + off + margin

/-- `word["word"] = word["word"].strip()` before storage (line 280). -/
def stripWord (w : Word) : Word := { w with word := pyStrip w.word }

/-- The `while speaker_idx < n_speakers` loop (lines 272-290) for one word
window `[ws, we]`: returns the remaining turns, the Python `speaker`
variable, and whether the word was retained. -/
def scanWord (ws we : ℚ) : List Turn → Option String → List Turn × Option String × Bool
  | [], sp => ([], sp, false)
  | t :: rest, _ =>
    if t.start ≤ we ∧ t.«end» ≥ ws then
      ((if t.«end» ≤ we then rest else t :: rest), some t.speaker, true)
    else if t.«end» < ws then
      scanWord ws we rest (some t.speaker)
    else
      (t :: rest, some t.speaker, false)

/-- The `for word in segment["words"]` loop (lines 268-290), accumulating
`segment_text` and `segment_words`. -/
def segmentLoop (off : ℚ) : ScanState → List String → List Word → List Word →
    ScanState × List String × List Word
  | st, texts, acc, [] => (st, texts, acc)
  | st, texts, acc, w :: rest =>
    let r := scanWord (wordWindowStart off w) (wordWindowEnd off w) st.rem st.sp
    if r.2.2 then
      segmentLoop off ⟨r.1, r.2.1⟩ (texts ++ [w.word]) (acc ++ [stripWord w]) rest
    else
      segmentLoop off ⟨r.1, r.2.1⟩ texts acc rest

/-- One iteration of `for segment in segments` (lines 261-303). -/
def processSegment (off : ℚ) (st : ScanState) (seg : TranscriptSegment) :
    ScanState × Option LabeledSegment :=
  let segment_start := seg.start + off
  let segment_end := seg.«end» + off
  let r := segmentLoop off st [] [] seg.words
  if r.2.1 = [] then
    (r.1, none)
  else
    (r.1, some { avg_logprob := seg.avg_logprob,
                 start := segment_start - off,
                 «end» := segment_end - off,
                 speaker := (r.1.sp).getD "",
                 text := pyStrip (reSubTwoSpaces (String.join r.2.1)),
                 words := r.2.2 })

/-- The full merge loop over segments, producing `final_segments`. -/
def alignLoop (off : ℚ) : ScanState → List TranscriptSegment → List LabeledSegment
  | _, [] => []
  | st, seg :: rest =>
    match processSegment off st seg with
    | (st2, some ls) => ls :: alignLoop off st2 rest
    | (st2, none) => alignLoop off st2 rest

/-- `final_segments` of `speech_to_text`, from the already-offset segment
dicts and the diarization turns (lines 257-303). -/
def alignSegments (turns : List Turn) (off : ℚ) (segs : List TranscriptSegment) :
    List LabeledSegment :=
  alignLoop off ⟨turns, none⟩ segs

/-- Seeding a fresh group from one labeled segment (lines 320-330 and
349-358). -/
def newGroup (fmt : String) (s : LabeledSegment) : Group :=
  { start := s.start, «end» := s.«end», speaker := s.speaker,
    avg_logprob := s.avg_logprob,
    text := if fmt = "segments_only" ∨ fmt = "both" then some s.text else none,
    words := if fmt = "words_only" ∨ fmt = "both" then some s.words else none }

/-- Merging one labeled segment into the running group (lines 339-343). -/
def mergeGroup (fmt : String) (g : Group) (s : LabeledSegment) : Group :=
  { g with
    «end» := s.«end»,
    text := if fmt = "segments_only" ∨ fmt = "both" then
              some ((g.text).getD "" ++ " " ++ s.text)
            else g.text,
    words := if fmt = "words_only" ∨ fmt = "both" then
              some ((g.words).getD [] ++ s.words)
            else g.words }

/-- The `for i in range(1, len(segments))` grouping loop (lines 332-361):
`prev` is `segments[i-1]` and `cur` is `current_group`. -/
def groupLoop (fmt : String) (gs : Bool) :
    LabeledSegment → Group → List LabeledSegment → List Group
  | _, cur, [] => [cur]
  | prev, cur, s :: rest =>
    if s.speaker = prev.speaker ∧ s.start - prev.«end» ≤ 2 ∧ gs = true then
      groupLoop fmt gs s (mergeGroup fmt cur s) rest
    else
      cur :: groupLoop fmt gs s (newGroup fmt s) rest

/-- The grouping stage (lines 317-361), seeded from the first labeled
segment. -/
def grouping (fmt : String) (gs : Bool) : List LabeledSegment → List Group
  | [] => []
  | s :: rest => groupLoop fmt gs s (newGroup fmt s) rest

/-- `Predictor.speech_to_text` after the two engine calls: `raw` are the
ASR segments (pre-offset), `turns` the diarization turns, `lang` the
detected language (`transcript_info.language`). -/
def speech_to_text (raw : List TranscriptSegment) (turns : List Turn) (off : ℚ)
    (gs : Bool) (fmt : String) (lang : String) : List Group × ℕ × String :=
  let segs := offsetSegments off raw
  let finalSegments := alignSegments turns off segs
  if finalSegments = [] then
    ([], detected_num_speakers turns, lang)
  else
    (grouping fmt gs finalSegments, detected_num_speakers turns, lang)

/-- The `Output` dataclass as constructed on success (`predict.py`
lines 161-165). -/
structure Output where
  segments : List Group
  language : String
  num_speakers : ℕ
  deriving DecidableEq, Repr

/-- `Predictor.predict`'s successful result under `Notte.process`'s call
`predictor.predict(file_url=audio_url)`: offset 0, `group_segments=True`,
`transcript_output_format="both"`. -/
def predictModel (raw : List TranscriptSegment) (turns : List Turn) (lang : String) :
    Output :=
  let r := speech_to_text raw turns 0 true "both" lang
  { segments := r.1, language := r.2.2, num_speakers := r.2.1 }

/-- `Notte.process` (`nodes/notte.py` lines 29-49): the try-block's outcome
is an `Except` value (any exception raised in setup or prediction becomes
`.error`); `dumps` stands for `json.dumps(·, ensure_ascii=False, indent=2)`
applied to the group list. -/
def process (dumps : List Group → String)
    (r : Except String (List TranscriptSegment × List Turn × String)) :
    ℕ × String × String :=
  match r with
  | .error _ => (0, "[]", "")
  | .ok (raw, turns, lang) =>
    let o := predictModel raw turns lang
    (o.num_speakers, dumps o.segments, o.language)

/-- Specification-level view of the aligner (§4.1/§4.2 of the design):
the retained words of a word list together with the speaker assigned at
their match, threading the same scan state as `segmentLoop`. -/
def retainedPairs (off : ℚ) : ScanState → List Word → List (Word × String)
  | _, [] => []
  | st, w :: rest =>
    let r := scanWord (wordWindowStart off w) (wordWindowEnd off w) st.rem st.sp
    if r.2.2 then
      (w, (r.2.1).getD "") :: retainedPairs off ⟨r.1, r.2.1⟩ rest
    else
      retainedPairs off ⟨r.1, r.2.1⟩ rest

/-- The scan state after processing a word list. -/
def stateAfter (off : ℚ) : ScanState → List Word → ScanState
  | st, [] => st
  | st, w :: rest =>
    let r := scanWord (wordWindowStart off w) (wordWindowEnd off w) st.rem st.sp
    stateAfter off ⟨r.1, r.2.1⟩ rest

lemma scanWord_rem_subset (ws we : ℚ) :
    ∀ (rem : List Turn) (sp : Option String), (scanWord ws we rem sp).1 ⊆ rem := by
  intro rem
  induction rem with
  | nil => intro sp; simp [scanWord]
  | cons t rest ih =>
    intro sp
    simp only [scanWord]
    split
    · intro x hx
      simp only at hx
      split at hx
      · exact List.mem_cons_of_mem t hx
      · exact hx
    · split
      · intro x hx
        exact List.mem_cons_of_mem t (ih (some t.speaker) hx)
      · intro x hx
        exact hx

lemma scanWord_retained (ws we : ℚ) :
    ∀ (rem rem2 : List Turn) (sp sp2 : Option String),
      scanWord ws we rem sp = (rem2, sp2, true) →
      ∃ t ∈ rem, (t.start ≤ we ∧ t.«end» ≥ ws) ∧ sp2 = some t.speaker := by
  intro rem
  induction rem with
  | nil => intro rem2 sp sp2 h; simp [scanWord] at h
  | cons t rest ih =>
    intro rem2 sp sp2 h
    simp only [scanWord] at h
    split at h
    · refine ⟨t, List.mem_cons_self t rest, by assumption, ?_⟩
      have h2 := congrArg (fun p => p.2.1) h
      simpa using h2.symm
    · split at h
      · obtain ⟨u, hu, hc, hs⟩ := ih rem2 (some t.speaker) sp2 h
        exact ⟨u, List.mem_cons_of_mem t hu, hc, hs⟩
      · have h3 := congrArg (fun p => p.2.2) h
        simp at h3

lemma segmentLoop_state (off : ℚ) :
    ∀ (l : List Word) (st : ScanState) (texts : List String) (acc : List Word),
      (segmentLoop off st texts acc l).1 = stateAfter off st l := by
  intro l
  induction l with
  | nil => intro st texts acc; rfl
  | cons w rest ih =>
    intro st texts acc
    rcases hscan : scanWord (wordWindowStart off w) (wordWindowEnd off w) st.rem st.sp
      with ⟨rem2, sp2, ret⟩
    simp only [segmentLoop, stateAfter, hscan]
    cases ret
    · simpa using ih ⟨rem2, sp2⟩ texts acc
    · simpa using ih ⟨rem2, sp2⟩ (texts ++ [w.word]) (acc ++ [stripWord w])

lemma segmentLoop_texts (off : ℚ) :
    ∀ (l : List Word) (st : ScanState) (texts : List String) (acc : List Word),
      (segmentLoop off st texts acc l).2.1
        = texts ++ (retainedPairs off st l).map (fun p => p.1.word) := by
  intro l
  induction l with
  | nil => intro st texts acc; simp [segmentLoop, retainedPairs]
  | cons w rest ih =>
    intro st texts acc
    rcases hscan : scanWord (wordWindowStart off w) (wordWindowEnd off w) st.rem st.sp
      with ⟨rem2, sp2, ret⟩
    simp only [segmentLoop, retainedPairs, hscan]
    cases ret
    · simpa using ih ⟨rem2, sp2⟩ texts acc
    · simp only [if_pos]
      rw [ih ⟨rem2, sp2⟩ (texts ++ [w.word]) (acc ++ [stripWord w])]
      simp

lemma segmentLoop_words (off : ℚ) :
    ∀ (l : List Word) (st : ScanState) (texts : List String) (acc : List Word),
      (segmentLoop off st texts acc l).2.2
        = acc ++ (retainedPairs off st l).map (fun p => stripWord p.1) := by
  intro l
  induction l with
  | nil => intro st texts acc; simp [segmentLoop, retainedPairs]
  | cons w rest ih =>
    intro st texts acc
    rcases hscan : scanWord (wordWindowStart off w) (wordWindowEnd off w) st.rem st.sp
      with ⟨rem2, sp2, ret⟩
    simp only [segmentLoop, retainedPairs, hscan]
    cases ret
    · simpa using ih ⟨rem2, sp2⟩ texts acc
    · simp only [if_pos]
      rw [ih ⟨rem2, sp2⟩ (texts ++ [w.word]) (acc ++ [stripWord w])]
      simp

lemma stateAfter_append (off : ℚ) :
    ∀ (l1 l2 : List Word) (st : ScanState),
      stateAfter off st (l1 ++ l2) = stateAfter off (stateAfter off st l1) l2 := by
  intro l1
  induction l1 with
  | nil => intro l2 st; rfl
  | cons w rest ih =>
    intro l2 st
    simp only [List.cons_append, stateAfter]
    exact ih _ _

lemma retainedPairs_append (off : ℚ) :
    ∀ (l1 l2 : List Word) (st : ScanState),
      retainedPairs off st (l1 ++ l2)
        = retainedPairs off st l1 ++ retainedPairs off (stateAfter off st l1) l2 := by
  intro l1
  induction l1 with
  | nil => intro l2 st; rfl
  | cons w rest ih =>
    intro l2 st
    rcases hscan : scanWord (wordWindowStart off w) (wordWindowEnd off w) st.rem st.sp
      with ⟨rem2, sp2, ret⟩
    simp only [List.cons_append, retainedPairs, stateAfter, hscan]
    cases ret
    · simpa using ih l2 ⟨rem2, sp2⟩
    · simpa using ih l2 ⟨rem2, sp2⟩

lemma stateAfter_rem_subset (off : ℚ) :
    ∀ (l : List Word) (st : ScanState), (stateAfter off st l).rem ⊆ st.rem := by
  intro l
  induction l with
  | nil => intro st x hx; exact hx
  | cons w rest ih =>
    intro st
    rcases hscan : scanWord (wordWindowStart off w) (wordWindowEnd off w) st.rem st.sp
      with ⟨rem2, sp2, ret⟩
    simp only [stateAfter, hscan]
    intro x hx
    have h1 := ih ⟨rem2, sp2⟩ hx
    have h2 := scanWord_rem_subset (wordWindowStart off w) (wordWindowEnd off w) st.rem st.sp
    rw [hscan] at h2
    exact h2 h1

lemma retainedPairs_overlap (off : ℚ) :
    ∀ (l : List Word) (st : ScanState) (p : Word × String),
      p ∈ retainedPairs off st l →
      ∃ t ∈ st.rem, t.start ≤ wordWindowEnd off p.1 ∧ t.«end» ≥ wordWindowStart off p.1 := by
  intro l
  induction l with
  | nil => intro st p hp; simp [retainedPairs] at hp
  | cons w rest ih =>
    intro st p hp
    rcases hscan : scanWord (wordWindowStart off w) (wordWindowEnd off w) st.rem st.sp
      with ⟨rem2, sp2, ret⟩
    simp only [retainedPairs, hscan] at hp
    have hsub : rem2 ⊆ st.rem := by
      have h2 := scanWord_rem_subset (wordWindowStart off w) (wordWindowEnd off w) st.rem st.sp
      rw [hscan] at h2
      exact h2
    cases ret with
    | false =>
      simp only [Bool.false_eq_true, if_false] at hp
      obtain ⟨t, ht, hc⟩ := ih ⟨rem2, sp2⟩ p hp
      exact ⟨t, hsub ht, hc⟩
    | true =>
      simp only [if_pos] at hp
      rcases List.mem_cons.mp hp with hp | hp
      · obtain ⟨t, ht, hc, _⟩ :=
          scanWord_retained (wordWindowStart off w) (wordWindowEnd off w) st.rem rem2 st.sp sp2 hscan
        exact ⟨t, ht, by rw [hp]; exact hc.1, by rw [hp]; exact hc.2⟩
      · obtain ⟨t, ht, hc⟩ := ih ⟨rem2, sp2⟩ p hp
        exact ⟨t, hsub ht, hc⟩

lemma processSegment_eq (off : ℚ) (st : ScanState) (seg : TranscriptSegment) :
    processSegment off st seg =
      (stateAfter off st seg.words,
       if retainedPairs off st seg.words = [] then none
       else some { avg_logprob := seg.avg_logprob,
                   start := seg.start + off - off,
                   «end» := seg.«end» + off - off,
                   speaker := ((stateAfter off st seg.words).sp).getD "",
                   text := pyStrip (reSubTwoSpaces (String.join
                     ((retainedPairs off st seg.words).map (fun p => p.1.word)))),
                   words := (retainedPairs off st seg.words).map (fun p => stripWord p.1) }) := by
  simp only [processSegment]
  rw [segmentLoop_state, segmentLoop_texts, segmentLoop_words]
  simp only [List.nil_append]
  by_cases h : retainedPairs off st seg.words = [] <;>
    simp [h, List.map_eq_nil_iff]

lemma alignLoop_words_overlap (off : ℚ) (turns : List Turn) :
    ∀ (segs : List TranscriptSegment) (st : ScanState), st.rem ⊆ turns →
      ∀ ls ∈ alignLoop off st segs, ∀ x ∈ ls.words,
        ∃ t ∈ turns, t.start ≤ x.«end» + off + margin ∧ t.«end» ≥ x.start + off - margin := by
  intro segs
  induction segs with
  | nil => intro st hst ls hls; simp [alignLoop] at hls
  | cons seg rest ih =>
    intro st hst ls hls x hx
    rw [alignLoop, processSegment_eq] at hls
    have hnext : (stateAfter off st seg.words).rem ⊆ turns :=
      fun t ht => hst (stateAfter_rem_subset off seg.words st ht)
    by_cases hp : retainedPairs off st seg.words = []
    · simp only [hp, if_pos] at hls
      exact ih (stateAfter off st seg.words) hnext ls hls x hx
    · simp only [hp, if_neg, if_false] at hls
      rcases List.mem_cons.mp hls with hls | hls
      · subst hls
        simp only at hx
        obtain ⟨p, hpmem, hpx⟩ := List.mem_map.mp hx
        obtain ⟨t, ht, hc1, hc2⟩ := retainedPairs_overlap off seg.words st p hpmem
        refine ⟨t, hst ht, ?_, ?_⟩
        · rw [← hpx]
          simpa [stripWord, wordWindowEnd] using hc1
        · rw [← hpx]
          simpa [stripWord, wordWindowStart] using hc2
      · exact ih (stateAfter off st seg.words) hnext ls hls x hx

lemma stateAfter_rem_nil (off : ℚ) :
    ∀ (l : List Word) (st : ScanState), st.rem = [] → stateAfter off st l = st := by
  intro l
  induction l with
  | nil => intro st _; rfl
  | cons w rest ih =>
    intro st hst
    obtain ⟨rem, sp⟩ := st
    simp only at hst
    subst hst
    simp only [stateAfter, scanWord]
    exact ih ⟨[], sp⟩ rfl

lemma retainedPairs_rem_nil (off : ℚ) :
    ∀ (l : List Word) (st : ScanState), st.rem = [] → retainedPairs off st l = [] := by
  intro l
  induction l with
  | nil => intro st _; rfl
  | cons w rest ih =>
    intro st hst
    obtain ⟨rem, sp⟩ := st
    simp only at hst
    subst hst
    simp only [retainedPairs, scanWord]
    exact ih ⟨[], sp⟩ rfl

lemma alignLoop_rem_nil (off : ℚ) :
    ∀ (segs : List TranscriptSegment) (st : ScanState), st.rem = [] →
      alignLoop off st segs = [] := by
  intro segs
  induction segs with
  | nil => intro st _; rfl
  | cons seg rest ih =>
    intro st hst
    rw [alignLoop, processSegment_eq, retainedPairs_rem_nil off seg.words st hst]
    simp only [if_pos]
    exact ih (stateAfter off st seg.words) (by rw [stateAfter_rem_nil off seg.words st hst]; exact hst)

lemma newGroup_start (fmt : String) (s : LabeledSegment) : (newGroup fmt s).start = s.start := rfl

lemma newGroup_end (fmt : String) (s : LabeledSegment) : (newGroup fmt s).«end» = s.«end» := rfl

lemma newGroup_speaker (fmt : String) (s : LabeledSegment) :
    (newGroup fmt s).speaker = s.speaker := rfl

lemma newGroup_text (fmt : String) (s : LabeledSegment) :
    (newGroup fmt s).text
      = if fmt = "segments_only" ∨ fmt = "both" then some s.text else none := rfl

lemma newGroup_words (fmt : String) (s : LabeledSegment) :
    (newGroup fmt s).words
      = if fmt = "words_only" ∨ fmt = "both" then some s.words else none := rfl

lemma mergeGroup_start (fmt : String) (g : Group) (s : LabeledSegment) :
    (mergeGroup fmt g s).start = g.start := rfl

lemma mergeGroup_end (fmt : String) (g : Group) (s : LabeledSegment) :
    (mergeGroup fmt g s).«end» = s.«end» := rfl

lemma mergeGroup_speaker (fmt : String) (g : Group) (s : LabeledSegment) :
    (mergeGroup fmt g s).speaker = g.speaker := rfl

lemma mergeGroup_text (fmt : String) (g : Group) (s : LabeledSegment) :
    (mergeGroup fmt g s).text
      = if fmt = "segments_only" ∨ fmt = "both" then some ((g.text).getD "" ++ " " ++ s.text)
        else g.text := rfl

lemma mergeGroup_words (fmt : String) (g : Group) (s : LabeledSegment) :
    (mergeGroup fmt g s).words
      = if fmt = "words_only" ∨ fmt = "both" then some ((g.words).getD [] ++ s.words)
        else g.words := rfl

lemma groupLoop_words_src (fmt : String) (gs : Bool) (Q : Word → Prop) :
    ∀ (l : List LabeledSegment) (prev : LabeledSegment) (cur : Group),
      (∀ x ∈ (cur.words).getD [], Q x) → (∀ s ∈ l, ∀ x ∈ s.words, Q x) →
      ∀ g ∈ groupLoop fmt gs prev cur l, ∀ x ∈ (g.words).getD [], Q x := by
  intro l
  induction l with
  | nil =>
    intro prev cur hcur _ g hg
    simp only [groupLoop, List.mem_singleton] at hg
    subst hg
    exact hcur
  | cons s rest ih =>
    intro prev cur hcur hl g hg
    rw [groupLoop] at hg
    split at hg
    · refine ih s (mergeGroup fmt cur s) ?_ (fun s2 hs2 => hl s2 (List.mem_cons_of_mem _ hs2)) g hg
      intro x hx
      rw [mergeGroup_words] at hx
      split at hx
      · simp only [Option.getD_some, List.mem_append] at hx
        rcases hx with hx | hx
        · exact hcur x hx
        · exact hl s (List.mem_cons_self s rest) x hx
      · exact hcur x hx
    · rcases List.mem_cons.mp hg with hg | hg
      · subst hg
        exact hcur
      · refine ih s (newGroup fmt s) ?_ (fun s2 hs2 => hl s2 (List.mem_cons_of_mem _ hs2)) g hg
        intro x hx
        rw [newGroup_words] at hx
        split at hx
        · simp only [Option.getD_some] at hx
          exact hl s (List.mem_cons_self s rest) x hx
        · simp at hx

lemma grouping_words_src (fmt : String) (gs : Bool) (Q : Word → Prop) :
    ∀ (segs : List LabeledSegment),
      (∀ s ∈ segs, ∀ x ∈ s.words, Q x) →
      ∀ g ∈ grouping fmt gs segs, ∀ x ∈ (g.words).getD [], Q x := by
  intro segs hsegs g hg
  cases segs with
  | nil => simp [grouping] at hg
  | cons s rest =>
    rw [grouping] at hg
    refine groupLoop_words_src fmt gs Q rest s (newGroup fmt s) ?_
      (fun s2 hs2 => hsegs s2 (List.mem_cons_of_mem _ hs2)) g hg
    intro x hx
    rw [newGroup_words] at hx
    split at hx
    · simp only [Option.getD_some] at hx
      exact hsegs s (List.mem_cons_self s rest) x hx
    · simp at hx

lemma groupLoop_head (fmt : String) (gs : Bool) :
    ∀ (l : List LabeledSegment) (prev : LabeledSegment) (cur : Group),
      ∃ g rest2, groupLoop fmt gs prev cur l = g :: rest2
        ∧ g.start = cur.start ∧ g.speaker = cur.speaker := by
  intro l
  induction l with
  | nil => intro prev cur; exact ⟨cur, [], rfl, rfl, rfl⟩
  | cons s rest ih =>
    intro prev cur
    rw [groupLoop]
    split
    · obtain ⟨g, rest2, heq, hs, hsp⟩ := ih s (mergeGroup fmt cur s)
      exact ⟨g, rest2, heq, by rw [hs, mergeGroup_start], by rw [hsp, mergeGroup_speaker]⟩
    · exact ⟨cur, _, rfl, rfl, rfl⟩

lemma groupLoop_chain (fmt : String) (gs : Bool) :
    ∀ (l : List LabeledSegment) (prev : LabeledSegment) (cur : Group),
      (gs = true → cur.speaker = prev.speaker ∧ cur.«end» = prev.«end») →
      List.Chain' (fun g1 g2 => g1.speaker ≠ g2.speaker ∨ g2.start - g1.«end» > 2 ∨ gs = false)
        (groupLoop fmt gs prev cur l) := by
  intro l
  induction l with
  | nil => intro prev cur _; simp [groupLoop]
  | cons s rest ih =>
    intro prev cur hinv
    rw [groupLoop]
    split
    · rename_i hcond
      refine ih s (mergeGroup fmt cur s) ?_
      intro hgs
      refine ⟨?_, mergeGroup_end fmt cur s⟩
      rw [mergeGroup_speaker, (hinv hgs).1, ← hcond.1]
    · rename_i hcond
      rw [List.chain'_cons']
      constructor
      · intro y hy
        obtain ⟨g, rest2, heq, hs, hsp⟩ := groupLoop_head fmt gs rest s (newGroup fmt s)
        rw [heq] at hy
        simp only [List.head?_cons, Option.mem_def, Option.some.injEq] at hy
        subst hy
        cases gs with
        | false => exact Or.inr (Or.inr rfl)
        | true =>
          obtain ⟨hspk, hend⟩ := hinv rfl
          rw [Decidable.not_and_iff_or_not] at hcond
          rcases hcond with hcond | hcond
          · refine Or.inl ?_
            rw [hsp, newGroup_speaker, hspk]
            exact fun hcontra => hcond hcontra.symm
          · rw [Decidable.not_and_iff_or_not] at hcond
            rcases hcond with hcond | hcond
            · refine Or.inr (Or.inl ?_)
              rw [hs, newGroup_start, hend]
              exact lt_of_not_le hcond
            · exact absurd rfl hcond
      · refine ih s (newGroup fmt s) ?_
        intro _
        exact ⟨newGroup_speaker fmt s, newGroup_end fmt s⟩

lemma groupLoop_not_grouped (fmt : String) :
    ∀ (l : List LabeledSegment) (prev : LabeledSegment) (cur : Group),
      groupLoop fmt false prev cur l = cur :: l.map (newGroup fmt) := by
  intro l
  induction l with
  | nil => intro prev cur; rfl
  | cons s rest ih =>
    intro prev cur
    rw [groupLoop, if_neg (by simp)]
    rw [ih s (newGroup fmt s)]
    rfl

lemma groupLoop_shape (fmt : String) (gs : Bool) :
    ∀ (l : List LabeledSegment) (prev : LabeledSegment) (cur : Group),
      ((fmt = "segments_only" → cur.words = none) ∧ (fmt = "words_only" → cur.text = none)) →
      ∀ g ∈ groupLoop fmt gs prev cur l,
        (fmt = "segments_only" → g.words = none) ∧ (fmt = "words_only" → g.text = none) := by
  intro l
  induction l with
  | nil =>
    intro prev cur hcur g hg
    simp only [groupLoop, List.mem_singleton] at hg
    subst hg
    exact hcur
  | cons s rest ih =>
    intro prev cur hcur g hg
    rw [groupLoop] at hg
    split at hg
    · refine ih s (mergeGroup fmt cur s) ⟨?_, ?_⟩ g hg
      · intro hf
        rw [mergeGroup_words, if_neg (by rw [hf]; decide)]
        exact hcur.1 hf
      · intro hf
        rw [mergeGroup_text, if_neg (by rw [hf]; decide)]
        exact hcur.2 hf
    · rcases List.mem_cons.mp hg with hg | hg
      · subst hg
        exact hcur
      · refine ih s (newGroup fmt s) ⟨?_, ?_⟩ g hg
        · intro hf
          rw [newGroup_words, if_neg (by rw [hf]; decide)]
        · intro hf
          rw [newGroup_text, if_neg (by rw [hf]; decide)]

/-- C3: for all adjacent Groups `g1, g2` in the output of the grouping
stage, either `g1.speaker != g2.speaker`, or `g2.start - g1.end > 2.0`,
or `group_segments` was false; the merge happens exactly when the
`group_segments` flag is set, the speakers agree and the gap is at most
2 seconds. -/
theorem c3_grouping_adjacent (fmt : String) (gs : Bool) (segs : List LabeledSegment) :
    List.Chain' (fun g1 g2 => g1.speaker ≠ g2.speaker ∨ g2.start - g1.«end» > 2 ∨ gs = false)
      (grouping fmt gs segs) := by
  cases segs with
  | nil => simp [grouping]
  | cons s rest =>
    rw [grouping]
    exact groupLoop_chain fmt gs rest s (newGroup fmt s)
      (fun _ => ⟨newGroup_speaker fmt s, newGroup_end fmt s⟩)

/-- C5: every Group produced by the grouping stage has no word list when
the output format is `segments_only`, and no text when it is
`words_only`. -/
theorem c5_output_shape (fmt : String) (gs : Bool) (segs : List LabeledSegment) (g : Group)
    (hg : g ∈ grouping fmt gs segs) :
    (fmt = "segments_only" → g.words = none) ∧ (fmt = "words_only" → g.text = none) := by
  cases segs with
  | nil => simp [grouping] at hg
  | cons s rest =>
    rw [grouping] at hg
    refine groupLoop_shape fmt gs rest s (newGroup fmt s) ⟨?_, ?_⟩ g hg
    · intro hf
      rw [newGroup_words, if_neg (by rw [hf]; decide)]
    · intro hf
      rw [newGroup_text, if_neg (by rw [hf]; decide)]

/-- Concrete labeled segment used by the C5 witness. -/
def lsW5 : LabeledSegment := ⟨-1, 0, 1, "A", "hi", [⟨0, 1, "hi", 0.9⟩]⟩

/-- Concrete group used by the C5 witness. -/
def gW5 : Group := ⟨0, 1, "A", -1, some "hi", none⟩

/-- C5 witness: the shape invariant at a concrete `segments_only` run. -/
theorem c5_witness :
    gW5 ∈ grouping "segments_only" true [lsW5] ∧
      ((("segments_only" : String) = "segments_only" → gW5.words = none) ∧
       (("segments_only" : String) = "words_only" → gW5.text = none)) :=
  ⟨by decide, c5_output_shape "segments_only" true [lsW5] gW5 (by decide)⟩

/-- C8: with `group_segments = false` the grouping stage emits exactly one
Group per LabeledSegment, carrying that segment's fields; in particular
the Group count equals the LabeledSegment count. -/
theorem c8_ungrouped (fmt : String) (segs : List LabeledSegment) :
    grouping fmt false segs = segs.map (newGroup fmt) ∧
      (grouping fmt false segs).length = segs.length := by
  have h : grouping fmt false segs = segs.map (newGroup fmt) := by
    cases segs with
    | nil => rfl
    | cons s rest =>
      rw [grouping, groupLoop_not_grouped]
      rfl
  exact ⟨h, by rw [h, List.length_map]⟩

/-- C4: when no labeled segments survive alignment the pipeline returns an
empty group list with the diarization speaker count and the detected
language still populated; in particular this holds for an empty turn
sequence (speaker count 0). -/
theorem c4_empty_alignment (raw : List TranscriptSegment) (turns : List Turn) (off : ℚ)
    (gs : Bool) (fmt : String) (lang : String) :
    (alignSegments turns off (offsetSegments off raw) = [] →
        speech_to_text raw turns off gs fmt lang = ([], detected_num_speakers turns, lang)) ∧
      speech_to_text raw [] off gs fmt lang = ([], 0, lang) := by
  constructor
  · intro h
    simp [speech_to_text, h]
  · have h0 : alignSegments ([] : List Turn) off (offsetSegments off raw) = [] :=
      alignLoop_rem_nil off _ ⟨[], none⟩ rfl
    simp [speech_to_text, h0, detected_num_speakers]

/-- Concrete ASR segments used by the C4 witness. -/
def rawW4 : List TranscriptSegment := [⟨-1, 0, 0.2, " hi", [⟨0, 0.2, " hi", 0.9⟩]⟩]

/-- Concrete diarization turns used by the C4 witness (no overlap). -/
def turnsW4 : List Turn := [⟨5, 6, "A"⟩]

/-- C4 witness: a run where no word overlaps any turn. -/
theorem c4_witness :
    alignSegments turnsW4 0 (offsetSegments 0 rawW4) = [] ∧
      speech_to_text rawW4 turnsW4 0 true "both" "en"
        = ([], detected_num_speakers turnsW4, "en") :=
  ⟨by with_unfolding_all decide,
   (c4_empty_alignment rawW4 turnsW4 0 true "both" "en").1 (by with_unfolding_all decide)⟩

/-- C10: `Notte.process` returns `(0, "[]", "")` when any exception is
raised in setup or prediction, and on success returns the predictor's
speaker count, the serialized group list, and the detected language. -/
theorem c10_process (dumps : List Group → String) (e : String)
    (raw : List TranscriptSegment) (turns : List Turn) (lang : String) :
    process dumps (Except.error e) = (0, "[]", "") ∧
      process dumps (Except.ok (raw, turns, lang)) =
        ((speech_to_text raw turns 0 true "both" lang).2.1,
         dumps (speech_to_text raw turns 0 true "both" lang).1,
         (speech_to_text raw turns 0 true "both" lang).2.2) ∧
      (speech_to_text raw turns 0 true "both" lang).2.2 = lang := by
  refine ⟨rfl, rfl, ?_⟩
  simp only [speech_to_text]
  split <;> rfl

/-- Concrete ASR segments used by the C9 theorem. -/
def c9raw : List TranscriptSegment := [⟨-0.5, 0.5, 0.6, " hi", [⟨0.5, 0.6, " hi", 0.9⟩]⟩]

/-- Concrete diarization turns used by the C9 theorem. -/
def c9turns : List Turn := [⟨0, 1, "A"⟩]

/-- C9: the match test compares a turn against the word's timestamps with
`offset_seconds` added twice (once in the segment dicts, once in the
loop) plus the 0.1s margin, and consequently retention differs between
`offset_seconds = 0` and a nonzero offset on a concrete input. -/
theorem c9_double_offset :
    (∀ (off : ℚ) (w : Word) (t : Turn),
      (t.start ≤ wordWindowEnd off (offsetWord off w)
          ∧ t.«end» ≥ wordWindowStart off (offsetWord off w))
        ↔ (t.start ≤ w.«end» + 2 * off + margin ∧ t.«end» ≥ w.start + 2 * off - margin)) ∧
    speech_to_text c9raw c9turns 0 true "both" "en"
      ≠ speech_to_text c9raw c9turns 5 true "both" "en" := by
  constructor
  · intro off w t
    have h1 : wordWindowEnd off (offsetWord off w) = w.«end» + 2 * off + margin := by
      simp only [wordWindowEnd, offsetWord]
      ring
    have h2 : wordWindowStart off (offsetWord off w) = w.start + 2 * off - margin := by
      simp only [wordWindowStart, offsetWord]
      ring
    rw [h1, h2]
  · with_unfolding_all decide

/-- Diarization turns for the C1 counterexample. -/
def c1turns : List Turn := [⟨0, 1, "A"⟩, ⟨10, 11, "B"⟩]

/-- ASR segment for the C1 counterexample: the first word matches turn
"A", the second word matches nothing but makes the scan read turn "B". -/
def c1seg : TranscriptSegment :=
  ⟨-0.5, 0.2, 2.5, " hello x", [⟨0.2, 0.5, " hello", 0.9⟩, ⟨2, 2.5, " x", 0.8⟩]⟩

/-- The labeled segment the aligner produces for `c1seg`. -/
def c1ls : LabeledSegment := ⟨-0.5, 0.2, 2.5, "B", "hello", [⟨0.2, 0.5, "hello", 0.9⟩]⟩

/-- C1 counterexample: the only retained word of the segment was assigned
speaker "A", but the emitted LabeledSegment carries speaker "B" (read
from the turn examined for the dropped second word). -/
theorem c1_counterexample :
    alignSegments c1turns 0 [c1seg] = [c1ls] ∧
    retainedPairs 0 ⟨c1turns, none⟩ c1seg.words = [(⟨0.2, 0.5, " hello", 0.9⟩, "A")] ∧
    c1ls.speaker = "B" ∧ ¬ c1ls.speaker = "A" := by
  with_unfolding_all decide

/-- C1 (corrected): the LabeledSegment's speaker equals the speaker
assigned to the segment's last retained word whenever the segment's final
word is itself retained; in general the `speaker` variable holds the
speaker of the last diarization turn examined, which can come from a word
dropped after the last retained one. -/
theorem c1_speaker_last_retained (off : ℚ) (st st2 : ScanState) (seg : TranscriptSegment)
    (l : List Word) (w : Word) (ls : LabeledSegment)
    (hw : seg.words = l ++ [w])
    (hret : (scanWord (wordWindowStart off w) (wordWindowEnd off w)
        (stateAfter off st l).rem (stateAfter off st l).sp).2.2 = true)
    (hps : processSegment off st seg = (st2, some ls)) :
    (retainedPairs off st seg.words).getLast? = some (w, ls.speaker) := by
  rcases hscan : scanWord (wordWindowStart off w) (wordWindowEnd off w)
      (stateAfter off st l).rem (stateAfter off st l).sp with ⟨rem2, sp2, ret⟩
  rw [hscan] at hret
  simp only at hret
  subst hret
  have hpairs : retainedPairs off st seg.words
      = retainedPairs off st l ++ [(w, sp2.getD "")] := by
    rw [hw, retainedPairs_append]
    congr 1
    simp [retainedPairs, hscan]
  have hstate : stateAfter off st seg.words = ⟨rem2, sp2⟩ := by
    rw [hw, stateAfter_append]
    simp [stateAfter, hscan]
  rw [processSegment_eq, hpairs, hstate] at hps
  rw [if_neg (by simp)] at hps
  rw [Prod.mk.injEq] at hps
  obtain ⟨-, hsnd⟩ := hps
  have hls := Option.some.inj hsnd
  subst hls
  rw [hpairs, List.getLast?_concat]

/-- Turns for the C1 witness. -/
def w1turns : List Turn := [⟨0, 1, "A"⟩]

/-- Single-word ASR segment for the C1 witness. -/
def w1seg : TranscriptSegment := ⟨-0.5, 0.2, 0.5, " hi", [⟨0.2, 0.5, " hi", 0.9⟩]⟩

/-- The single word of `w1seg`. -/
def w1word : Word := ⟨0.2, 0.5, " hi", 0.9⟩

/-- The labeled segment produced for `w1seg`. -/
def w1ls : LabeledSegment := ⟨-0.5, 0.2, 0.5, "A", "hi", [⟨0.2, 0.5, "hi", 0.9⟩]⟩

/-- The scan state after `w1seg`. -/
def w1st2 : ScanState := ⟨[⟨0, 1, "A"⟩], some "A"⟩

/-- C1 witness: concrete instance of `c1_speaker_last_retained`. -/
theorem c1_witness :
    w1seg.words = [] ++ [w1word] ∧
    (scanWord (wordWindowStart 0 w1word) (wordWindowEnd 0 w1word)
        (stateAfter 0 ⟨w1turns, none⟩ []).rem (stateAfter 0 ⟨w1turns, none⟩ []).sp).2.2 = true ∧
    processSegment 0 ⟨w1turns, none⟩ w1seg = (w1st2, some w1ls) ∧
    (retainedPairs 0 ⟨w1turns, none⟩ w1seg.words).getLast? = some (w1word, w1ls.speaker) :=
  ⟨by with_unfolding_all decide, by with_unfolding_all decide, by with_unfolding_all decide,
   c1_speaker_last_retained 0 ⟨w1turns, none⟩ w1st2 w1seg [] w1word w1ls
     (by with_unfolding_all decide) (by with_unfolding_all decide)
     (by with_unfolding_all decide)⟩

/-- Diarization turns for the C7 counterexample. -/
def c7turns : List Turn := [⟨0, 1, "A"⟩, ⟨5, 6, "B"⟩]

/-- ASR segment for the C7 counterexample: two retained words covered by
two different turns. -/
def c7seg : TranscriptSegment :=
  ⟨-0.5, 0.2, 5.5, " hi yo", [⟨0.2, 0.5, " hi", 0.9⟩, ⟨5.2, 5.5, " yo", 0.8⟩]⟩

/-- The labeled segment the aligner produces for `c7seg`. -/
def c7ls : LabeledSegment :=
  ⟨-0.5, 0.2, 5.5, "B", "hi yo", [⟨0.2, 0.5, "hi", 0.9⟩, ⟨5.2, 5.5, "yo", 0.8⟩]⟩

/-- C7 counterexample: the first retained word was assigned speaker "A",
but the emitted LabeledSegment carries the *last* retained word's speaker
"B". -/
theorem c7_counterexample :
    alignSegments c7turns 0 [c7seg] = [c7ls] ∧
    (retainedPairs 0 ⟨c7turns, none⟩ c7seg.words).head? = some (⟨0.2, 0.5, " hi", 0.9⟩, "A") ∧
    c7ls.speaker = "B" ∧ ¬ c7ls.speaker = "A" := by
  with_unfolding_all decide

/-- C7 (corrected): the LabeledSegment's speaker equals the first retained
word's speaker only in restricted situations, e.g. when the segment has a
single word: then the speaker is read off the head of the retained-pair
list. -/
theorem c7_speaker_single_word (off : ℚ) (st st2 : ScanState) (seg : TranscriptSegment)
    (w : Word) (ls : LabeledSegment) (p : Word × String)
    (hw : seg.words = [w])
    (hps : processSegment off st seg = (st2, some ls))
    (hhead : (retainedPairs off st seg.words).head? = some p) :
    ls.speaker = p.2 := by
  rcases hscan : scanWord (wordWindowStart off w) (wordWindowEnd off w) st.rem st.sp
    with ⟨rem2, sp2, ret⟩
  rw [processSegment_eq] at hps
  rw [hw] at hps hhead
  cases ret with
  | false =>
    have hpairs : retainedPairs off st [w] = [] := by
      simp [retainedPairs, hscan]
    rw [hpairs] at hhead
    simp at hhead
  | true =>
    have hpairs : retainedPairs off st [w] = [(w, sp2.getD "")] := by
      simp [retainedPairs, hscan]
    have hstate : stateAfter off st [w] = ⟨rem2, sp2⟩ := by
      simp [stateAfter, hscan]
    rw [hpairs] at hps hhead
    rw [hstate] at hps
    rw [if_neg (by simp)] at hps
    rw [Prod.mk.injEq] at hps
    obtain ⟨-, hsnd⟩ := hps
    have hls := Option.some.inj hsnd
    subst hls
    simp only [List.head?_cons, Option.some.injEq] at hhead
    rw [← hhead]

/-- Turns for the C7 witness. -/
def w7turns : List Turn := [⟨0, 1, "A"⟩]

/-- Single-word ASR segment for the C7 witness. -/
def w7seg : TranscriptSegment := ⟨-0.5, 0.2, 0.5, " yo", [⟨0.2, 0.5, " yo", 0.9⟩]⟩

/-- The labeled segment produced for `w7seg`. -/
def w7ls : LabeledSegment := ⟨-0.5, 0.2, 0.5, "A", "yo", [⟨0.2, 0.5, "yo", 0.9⟩]⟩

/-- The scan state after `w7seg`. -/
def w7st2 : ScanState := ⟨[⟨0, 1, "A"⟩], some "A"⟩

/-- C7 witness: concrete instance of `c7_speaker_single_word`. -/
theorem c7_witness :
    w7seg.words = [⟨0.2, 0.5, " yo", 0.9⟩] ∧
    processSegment 0 ⟨w7turns, none⟩ w7seg = (w7st2, some w7ls) ∧
    (retainedPairs 0 ⟨w7turns, none⟩ w7seg.words).head? = some (⟨0.2, 0.5, " yo", 0.9⟩, "A") ∧
    w7ls.speaker = "A" :=
  ⟨by with_unfolding_all decide, by with_unfolding_all decide, by with_unfolding_all decide,
   c7_speaker_single_word 0 ⟨w7turns, none⟩ w7st2 w7seg ⟨0.2, 0.5, " yo", 0.9⟩ w7ls
     (⟨0.2, 0.5, " yo", 0.9⟩, "A")
     (by with_unfolding_all decide) (by with_unfolding_all decide)
     (by with_unfolding_all decide)⟩

/-- C6: a LabeledSegment's text is the concatenation of its retained
words' raw texts with double spaces collapsed once and the result
stripped, and its stored words are the retained words with their own text
stripped. -/
theorem c6_segment_text (off : ℚ) (st st2 : ScanState) (seg : TranscriptSegment)
    (ls : LabeledSegment)
    (hps : processSegment off st seg = (st2, some ls)) :
    ls.text = pyStrip (reSubTwoSpaces (String.join
        ((retainedPairs off st seg.words).map (fun p => p.1.word)))) ∧
    ls.words = (retainedPairs off st seg.words).map (fun p => stripWord p.1) := by
  rw [processSegment_eq] at hps
  by_cases hp : retainedPairs off st seg.words = []
  · simp [hp] at hps
  · rw [if_neg hp] at hps
    rw [Prod.mk.injEq] at hps
    obtain ⟨-, hsnd⟩ := hps
    have hls := Option.some.inj hsnd
    subst hls
    exact ⟨rfl, rfl⟩

/-- Turns for the C6 witness. -/
def w6turns : List Turn := [⟨0, 5, "A"⟩]

/-- Two-word ASR segment for the C6 witness. -/
def w6seg : TranscriptSegment :=
  ⟨-0.2, 0, 2, " hi there", [⟨0, 1, " hi", 0.9⟩, ⟨1, 2, " there", 0.8⟩]⟩

/-- The scan state after `w6seg`. -/
def w6st2 : ScanState := ⟨[⟨0, 5, "A"⟩], some "A"⟩

/-- The labeled segment produced for `w6seg`. -/
def w6ls : LabeledSegment :=
  ⟨-0.2, 0, 2, "A", "hi there", [⟨0, 1, "hi", 0.9⟩, ⟨1, 2, "there", 0.8⟩]⟩

/-- C6 witness: concrete instance of `c6_segment_text`. -/
theorem c6_witness :
    processSegment 0 ⟨w6turns, none⟩ w6seg = (w6st2, some w6ls) ∧
    (w6ls.text = pyStrip (reSubTwoSpaces (String.join
        ((retainedPairs 0 ⟨w6turns, none⟩ w6seg.words).map (fun p => p.1.word)))) ∧
     w6ls.words = (retainedPairs 0 ⟨w6turns, none⟩ w6seg.words).map (fun p => stripWord p.1)) :=
  ⟨by with_unfolding_all decide,
   c6_segment_text 0 ⟨w6turns, none⟩ w6st2 w6seg w6ls (by with_unfolding_all decide)⟩

/-- C2 (corrected): every word appearing in any output Group's word list
was matched by a turn overlapping the window widened around the word's
stored timestamps with `offset_seconds` added once more:
`[x.start + off - 0.1, x.end + off + 0.1]`; the claimed window
`[x.start - 0.1, x.end + 0.1]` is only correct for `offset_seconds = 0`. -/
theorem c2_words_overlap (raw : List TranscriptSegment) (turns : List Turn) (off : ℚ)
    (gs : Bool) (fmt : String) (lang : String) (g : Group) (x : Word)
    (hg : g ∈ (speech_to_text raw turns off gs fmt lang).1)
    (hx : x ∈ (g.words).getD []) :
    ∃ t ∈ turns, t.start ≤ x.«end» + off + margin ∧ t.«end» ≥ x.start + off - margin := by
  simp only [speech_to_text] at hg
  split at hg
  · simp at hg
  · have hg2 : g ∈ grouping fmt gs (alignSegments turns off (offsetSegments off raw)) := hg
    refine grouping_words_src fmt gs
      (fun y => ∃ t ∈ turns, t.start ≤ y.«end» + off + margin ∧ t.«end» ≥ y.start + off - margin)
      (alignSegments turns off (offsetSegments off raw)) ?_ g hg2 x hx
    intro s hs y hy
    exact alignLoop_words_overlap off turns (offsetSegments off raw) ⟨turns, none⟩
      (fun t ht => ht) s hs y hy

/-- Turns for the C2 counterexample. -/
def c2turns : List Turn := [⟨10, 10.5, "A"⟩]

/-- The single turn of `c2turns`. -/
def c2turn : Turn := ⟨10, 10.5, "A"⟩

/-- ASR segment for the C2 counterexample (run with `offset_seconds = 5`). -/
def c2seg : TranscriptSegment := ⟨-0.5, 0, 1, " hi", [⟨0, 1, " hi", 0.9⟩]⟩

/-- The word as stored in the C2 counterexample output. -/
def c2word : Word := ⟨5, 6, "hi", 0.9⟩

/-- The group in the C2 counterexample output. -/
def c2group : Group := ⟨5, 6, "A", -0.5, some "hi", some [⟨5, 6, "hi", 0.9⟩]⟩

/-- C2 counterexample: at `offset_seconds = 5` the output contains a word
whose widened window `[start - 0.1, end + 0.1]` overlaps no turn at all
(the only turn lies at `[10, 10.5]`). -/
theorem c2_counterexample :
    (speech_to_text [c2seg] c2turns 5 true "both" "en").1 = [c2group] ∧
    c2group.words = some [c2word] ∧
    c2turns = [c2turn] ∧
    ¬ (c2turn.start ≤ c2word.«end» + 0.1 ∧ c2turn.«end» ≥ c2word.start - 0.1) := by
  with_unfolding_all decide

/-- ASR segments for the C2 witness. -/
def rawW2 : List TranscriptSegment := [⟨-0.5, 0.2, 0.5, " hi", [⟨0.2, 0.5, " hi", 0.9⟩]⟩]

/-- Turns for the C2 witness. -/
def turnsW2 : List Turn := [⟨0, 1, "A"⟩]

/-- The group in the C2 witness output. -/
def gW2 : Group := ⟨0.2, 0.5, "A", -0.5, some "hi", some [⟨0.2, 0.5, "hi", 0.9⟩]⟩

/-- The word in the C2 witness output. -/
def xW2 : Word := ⟨0.2, 0.5, "hi", 0.9⟩

/-- C2 witness: concrete instance of `c2_words_overlap`. -/
theorem c2_witness :
    gW2 ∈ (speech_to_text rawW2 turnsW2 0 true "both" "en").1 ∧
    xW2 ∈ (gW2.words).getD [] ∧
    (∃ t ∈ turnsW2, t.start ≤ xW2.«end» + 0 + margin ∧ t.«end» ≥ xW2.start + 0 - margin) :=
  ⟨by with_unfolding_all decide, by with_unfolding_all decide,
   c2_words_overlap rawW2 turnsW2 0 true "both" "en" gW2 xW2
     (by with_unfolding_all decide) (by with_unfolding_all decide)⟩

end Notte
